import Mathlib

/-!
Shallow embedding of `src/openai_helper/context.py` (class `ContextProvider`).

The filesystem is modelled as a finite tree of entries; the tokenizer
(the `tiktoken` encoding obtained in `iter_files`) is an abstract capability
`enc : String → Nat`; each compiled regular expression is an abstract search
function `String → Bool` (the truthiness of Python `pattern.search(s)`).
A decode failure (`UnicodeDecodeError`) is modelled by a `readable` flag on
each file, the failure surfacing when the file is opened, before any chunk
is processed.
-/

namespace OpenaiHelper

/-- A path is the list of its components, starting at the scan root. -/
abbrev FsPath := List String

/-- A filesystem entry: a regular file (with its decoded content and a flag
recording whether decoding succeeds) or a directory holding further
entries. -/
inductive Entry where
  | file (name : String) (content : String) (readable : Bool)
  | dir (name : String) (entries : List Entry)

/-- Python `Path.name`: the last path component (empty for the empty path). -/
def pathName : FsPath → String
  | [] => ""
  | [n] => n
  | _ :: rest => pathName rest

/-- Python `str(path)`: the components joined with `/`. -/
def pathStr : FsPath → String
  | [] => ""
  | [c] => c
  | c :: rest => c ++ "/" ++ pathStr rest

/-- Python `s.startswith(".")`. -/
def startsWithDot (s : String) : Bool :=
  match s.data with
  | [] => false
  | c :: _ => c == '.'

/-- The characters removed by Python `str.strip()` (the ASCII whitespace
characters; the rarely used further Unicode space characters are not
modelled). -/
def pySpace (c : Char) : Bool :=
  c == ' ' || c == '\t' || c == '\n' || c == '\r' || c == '\x0b' || c == '\x0c'

/-- Python `s.strip()`: remove leading and trailing whitespace. -/
def strip (s : String) : String :=
  ⟨((s.data.dropWhile pySpace).reverse.dropWhile pySpace).reverse⟩

/-- The configuration of `ContextProvider.__init__`: the scan root plus the
filter options, in the order of the constructor's parameters.  The four
regex options hold the abstract search function of the compiled pattern
(`none` when the option was not given). -/
structure ContextProvider where
  directory : FsPath
  regex_whitelist : Option (String → Bool)
  regex_blacklist : Option (String → Bool)
  allow_hidden : Bool
  recursive : Bool
  allow_hidden_subdirectories : Bool
  regex_path_whitelist : Option (String → Bool)
  regex_path_blacklist : Option (String → Bool)
  skip_unreadable : Bool
  skip_empty : Bool

/-- `ContextProvider._file_matches`: the ordered chain of early-return
exclusion tests. -/
def ContextProvider.file_matches (cfg : ContextProvider) (path : FsPath) : Bool :=
  if !cfg.allow_hidden && startsWithDot (pathName path) then false
  else if (match cfg.regex_whitelist with
           | some r => !(r (pathName path))
           | none => false) then false
  else if (match cfg.regex_blacklist with
           | some r => r (pathName path)
           | none => false) then false
  else if (match cfg.regex_path_whitelist with
           | some r => !(r (pathStr path))
           | none => false) then false
  else if (match cfg.regex_path_blacklist with
           | some r => r (pathStr path)
           | none => false) then false
  else true

/-- `ContextProvider.iter_file_paths`: depth-first walk of the entries of
`top`, yielding matching files and descending into a subdirectory only when
`recursive` and (not hidden or `allow_hidden_subdirectories`). -/
def ContextProvider.iter_file_paths (cfg : ContextProvider) (top : FsPath) :
    List Entry → List FsPath
  | [] => []
  | .file n _ _ :: rest =>
      (if cfg.file_matches (top ++ [n]) then [top ++ [n]] else []) ++
        cfg.iter_file_paths top rest
  | .dir n ds :: rest =>
      (if cfg.recursive then
        if cfg.allow_hidden_subdirectories || !(startsWithDot n) then
          cfg.iter_file_paths (top ++ [n]) ds
        else []
      else []) ++ cfg.iter_file_paths top rest

/-- The same walk, paired with what `open(path)` finds there: the file's
content and whether decoding succeeds.  (`iter_files` iterates over
`iter_file_paths` and opens each yielded path; the walk is deterministic, so
opening is a lookup of the very entry the walk produced.) -/
def ContextProvider.matching_files (cfg : ContextProvider) (top : FsPath) :
    List Entry → List (FsPath × String × Bool)
  | [] => []
  | .file n c r :: rest =>
      (if cfg.file_matches (top ++ [n]) then [(top ++ [n], c, r)] else []) ++
        cfg.matching_files top rest
  | .dir n ds :: rest =>
      (if cfg.recursive then
        if cfg.allow_hidden_subdirectories || !(startsWithDot n) then
          cfg.matching_files (top ++ [n]) ds
        else []
      else []) ++ cfg.matching_files top rest

/-- `file.read(chunk_size)` repeated until end of file: the successive
chunks, computed with fuel `s.length` (each nonempty read consumes at least
one character when `0 < n`). -/
def chunksGo (n : Nat) : Nat → List Char → List (List Char)
  | 0, _ => []
  | _ + 1, [] => []
  | fuel + 1, c :: cs => (c :: cs).take n :: chunksGo n fuel ((c :: cs).drop n)

/-- The list of raw chunks of a file's content for a given `chunk_size`.
`read(0)` returns the empty string, so with `chunk_size = 0` the read loop
breaks at once and no chunk is produced. -/
def chunks (chunk_size : Nat) (s : String) : List String :=
  if chunk_size = 0 then []
  else (chunksGo chunk_size s.data.length s.data).map fun l => ⟨l⟩

/-- The state of the inner read loop of `iter_files` when it finishes for
one file: the accumulated (stripped) content, the per-file token count, the
running total across files, and whether the loop exited through the
budget-exceeded early return. -/
structure ChunkOut where
  file_content : String
  file_tokens : Nat
  total_tokens : Nat
  exceeded : Bool
deriving DecidableEq

/-- The inner `while True` read loop of `iter_files`, over the list of raw
chunks: strip each chunk, append it to the file's content, count its tokens,
add them to the per-file and running totals, and stop as soon as the running
total strictly exceeds `token_limit`. -/
def readChunks (enc : String → Nat) (token_limit : Nat) :
    List String → String → Nat → Nat → ChunkOut
  | [], file_content, file_tokens, total_tokens =>
      ⟨file_content, file_tokens, total_tokens, false⟩
  | chunk :: rest, file_content, file_tokens, total_tokens =>
      let c := strip chunk
      let file_content := file_content ++ c
      let chunk_tokens := enc c
      let file_tokens := file_tokens + chunk_tokens
      let total_tokens := total_tokens + chunk_tokens
      if token_limit < total_tokens then
        ⟨file_content, file_tokens, total_tokens, true⟩
      else
        readChunks enc token_limit rest file_content file_tokens total_tokens

/-- The observable outcome of one `iter_files` call: the yielded records
`(tokens, path, content)`, the paths logged by `logger.error`, and whether
the generator ended by re-raising a decode failure. -/
structure IterOut where
  records : List (Nat × FsPath × String)
  logs : List FsPath
  raised : Bool
deriving DecidableEq

/-- The outer `for path in self.iter_file_paths(top)` loop of `iter_files`,
over the matching files with their contents, carrying the running
`total_tokens`.  An unreadable file raises `UnicodeDecodeError` when opened:
the path is logged, then either the loop continues (`skip_unreadable`) or
the exception propagates and the generator ends.  The final
`if self.skip_empty and not file_content: continue` of the source sits at
the end of the loop body, so both of its outcomes proceed to the next file;
it is kept here as the corresponding if with identical branches. -/
def iter_files_go (cfg : ContextProvider) (enc : String → Nat)
    (chunk_size token_limit : Nat) :
    List (FsPath × String × Bool) → Nat → IterOut
  | [], _ => ⟨[], [], false⟩
  | (path, content, readable) :: rest, total_tokens =>
      if readable then
        let r := readChunks enc token_limit (chunks chunk_size content) "" 0 total_tokens
        if r.exceeded then
          ⟨[(r.total_tokens, path, r.file_content)], [], false⟩
        else
          let tail :=
            if cfg.skip_empty && r.file_content.data.isEmpty then
              iter_files_go cfg enc chunk_size token_limit rest r.total_tokens
            else
              iter_files_go cfg enc chunk_size token_limit rest r.total_tokens
          ⟨(if 0 < r.file_tokens then [(r.file_tokens, path, r.file_content)] else []) ++
              tail.records,
            tail.logs, tail.raised⟩
      else
        if cfg.skip_unreadable then
          let tail := iter_files_go cfg enc chunk_size token_limit rest total_tokens
          ⟨tail.records, path :: tail.logs, tail.raised⟩
        else
          ⟨[], [path], true⟩

/-- `ContextProvider.iter_files`: walk the matching files under `top`
(whose entries are `entries`) and run the chunked read loop with the running
total starting at 0. -/
def ContextProvider.iter_files (cfg : ContextProvider) (enc : String → Nat)
    (top : FsPath) (entries : List Entry) (chunk_size token_limit : Nat) : IterOut :=
  iter_files_go cfg enc chunk_size token_limit (cfg.matching_files top entries) 0

/-- Sum of the token counts of a record list. -/
def sumTokens (rs : List (Nat × FsPath × String)) : Nat :=
  (rs.map fun r => r.1).sum

/-- `ContextProvider.calculate_tokens`: sum of the token components of the
records of `iter_files` with its default `chunk_size = 1024` and
`token_limit = 10000`. -/
def ContextProvider.calculate_tokens (cfg : ContextProvider) (enc : String → Nat)
    (top : FsPath) (entries : List Entry) : Nat :=
  sumTokens (cfg.iter_files enc top entries 1024 10000).records

/-- Python `path.relative_to(base)` for a path lying under `base` (the only
case the walker produces): drop the leading base components. -/
def relative_to (p : FsPath) (base : FsPath) : FsPath :=
  p.drop base.length

/-- Python `sep.join(strs)`. -/
def joinSep (sep : String) : List String → String
  | [] => ""
  | [x] => x
  | x :: rest => x ++ sep ++ joinSep sep rest

/-- `ContextProvider.get_context`: the records of `iter_files` (defaults,
rooted at `directory`), each formatted as a header line with the path
relative to `directory`, the content, and a trailing line break, joined by
three consecutive line breaks. -/
def ContextProvider.get_context (cfg : ContextProvider) (enc : String → Nat)
    (entries : List Entry) : String :=
  joinSep "\n\n\n"
    ((cfg.iter_files enc cfg.directory entries 1024 10000).records.map
      fun r => "// File \x27" ++ pathStr (relative_to r.2.1 cfg.directory) ++ "\x27\n"
        ++ r.2.2 ++ "\n")

/-- The concatenation of the stripped chunks of a file, as accumulated by
the read loop into `file_content`. -/
def joinStripped : List String → String
  | [] => ""
  | c :: rest => strip c ++ joinStripped rest

/-- The total token count of a list of chunks: each chunk is stripped and
counted by the tokenizer capability. -/
def chunkTokens (enc : String → Nat) (cs : List String) : Nat :=
  (cs.map fun c => enc (strip c)).sum

/-- The token count `iter_files` accumulates for one fully read file:
the chunked content, each chunk stripped and counted. -/
def fileTokens (enc : String → Nat) (chunk_size : Nat) (content : String) : Nat :=
  chunkTokens enc (chunks chunk_size content)

/-- Stated from the spec's words, for comparison with `iter_file_paths`
(section 8: with no filters set the walk yields exactly the regular files
reachable under the root, recursing only when `recursive`, descending into a
hidden subdirectory only when `allow_hidden_subdirectories`, and excluding
dotfiles unless `allow_hidden`; directories are never yielded). -/
def specReachableFiles (allow_hidden recursive allow_hidden_subdirectories : Bool)
    (top : FsPath) : List Entry → List FsPath
  | [] => []
  | .file n _ _ :: rest =>
      (if allow_hidden || !(startsWithDot n) then [top ++ [n]] else []) ++
        specReachableFiles allow_hidden recursive allow_hidden_subdirectories top rest
  | .dir n ds :: rest =>
      (if recursive && (allow_hidden_subdirectories || !(startsWithDot n)) then
        specReachableFiles allow_hidden recursive allow_hidden_subdirectories (top ++ [n]) ds
      else []) ++
        specReachableFiles allow_hidden recursive allow_hidden_subdirectories top rest

/-- A provider with all construction defaults (`ContextProvider("root")`):
no patterns, hidden files and hidden subdirectories excluded, recursive,
unreadable files skipped, `skip_empty` off. -/
def cfgDefaults : ContextProvider :=
  ⟨["root"], none, none, false, true, false, none, none, true, false⟩

/-- A deterministic stand-in for the tokenizer capability (section 4.4
allows any deterministic pure function): the character count. -/
def encLen : String → Nat := fun s => s.data.length

theorem pathName_snoc (pre : FsPath) (n : String) : pathName (pre ++ [n]) = n := by
  induction pre with
  | nil => rfl
  | cons a l ih =>
      cases l with
      | nil => rfl
      | cons b l2 => simpa [pathName] using ih

theorem sumTokens_append (a b : List (Nat × FsPath × String)) :
    sumTokens (a ++ b) = sumTokens a + sumTokens b := by
  simp [sumTokens]

theorem readChunks_delta (enc : String → Nat) (tl : Nat) :
    ∀ (cs : List String) (cont : String) (f t : Nat),
      ∃ d, (readChunks enc tl cs cont f t).file_tokens = f + d ∧
        (readChunks enc tl cs cont f t).total_tokens = t + d := by
  intro cs
  induction cs with
  | nil => exact fun cont f t => ⟨0, rfl, rfl⟩
  | cons c rest ih =>
      intro cont f t
      simp only [readChunks]
      by_cases h : tl < t + enc (strip c)
      · exact ⟨enc (strip c), by simp [h], by simp [h]⟩
      · obtain ⟨d, h1, h2⟩ := ih (cont ++ strip c) (f + enc (strip c)) (t + enc (strip c))
        refine ⟨enc (strip c) + d, ?_, ?_⟩
        · simp only [if_neg h]
          omega
        · simp only [if_neg h]
          omega

theorem readChunks_exceeded_spec (enc : String → Nat) (tl : Nat) :
    ∀ (cs : List String) (cont : String) (f t : Nat),
      ((readChunks enc tl cs cont f t).exceeded = true →
        tl < (readChunks enc tl cs cont f t).total_tokens) ∧
      ((readChunks enc tl cs cont f t).exceeded = false → t ≤ tl →
        (readChunks enc tl cs cont f t).total_tokens ≤ tl) := by
  intro cs
  induction cs with
  | nil =>
      intro cont f t
      refine ⟨?_, ?_⟩
      · intro h; simp [readChunks] at h
      · intro _ h; simpa [readChunks] using h
  | cons c rest ih =>
      intro cont f t
      simp only [readChunks]
      by_cases h : tl < t + enc (strip c)
      · simp only [if_pos h]
        exact ⟨fun _ => h, fun hex => by simp at hex⟩
      · simp only [if_neg h]
        refine ⟨(ih _ _ _).1, fun hex _ => (ih _ _ _).2 hex (Nat.le_of_not_lt h)⟩

theorem readChunks_complete (enc : String → Nat) (tl : Nat) :
    ∀ (cs : List String) (cont : String) (f t : Nat),
      t + chunkTokens enc cs ≤ tl →
      readChunks enc tl cs cont f t =
        ⟨cont ++ joinStripped cs, f + chunkTokens enc cs, t + chunkTokens enc cs, false⟩ := by
  intro cs
  induction cs with
  | nil => intro cont f t _; simp [readChunks, chunkTokens, joinStripped]
  | cons c rest ih =>
      intro cont f t h
      have hsum : t + (enc (strip c) + chunkTokens enc rest) ≤ tl := by
        simpa [chunkTokens] using h
      have hk : ¬ tl < t + enc (strip c) := by omega
      simp only [readChunks, if_neg hk]
      rw [ih (cont ++ strip c) (f + enc (strip c)) (t + enc (strip c)) (by omega)]
      simp [chunkTokens, joinStripped, String.append_assoc, Nat.add_assoc]

theorem readChunks_content (enc : String → Nat) (tl : Nat) :
    ∀ (cs : List String) (cont : String) (f t : Nat),
      (readChunks enc tl cs cont f t).exceeded = false →
      (readChunks enc tl cs cont f t).file_content = cont ++ joinStripped cs := by
  intro cs
  induction cs with
  | nil => intro cont f t _; simp [readChunks, joinStripped]
  | cons c rest ih =>
      intro cont f t hex
      by_cases h : tl < t + enc (strip c)
      · simp [readChunks, if_pos h] at hex
      · simp only [readChunks, if_neg h] at hex ⊢
        rw [ih _ _ _ hex]
        simp [joinStripped, String.append_assoc]

theorem readChunks_zero_limit (enc : String → Nat) :
    ∀ (cs : List String) (cont : String) (f : Nat),
      0 < chunkTokens enc cs →
      (readChunks enc 0 cs cont f 0).exceeded = true := by
  intro cs
  induction cs with
  | nil => intro cont f h; simp [chunkTokens] at h
  | cons c rest ih =>
      intro cont f h
      by_cases hk : 0 < enc (strip c)
      · simp [readChunks, hk]
      · have hk0 : enc (strip c) = 0 := by omega
        have hrest : 0 < chunkTokens enc rest := by
          simpa [chunkTokens, hk0] using h
        have hnot : ¬ (0 : Nat) < 0 + enc (strip c) := by omega
        simp only [readChunks, if_neg hnot, hk0]
        simpa using ih (cont ++ strip c) (f + 0) hrest

theorem iter_files_go_skip_unreadable_congr (cfg1 cfg2 : ContextProvider)
    (enc : String → Nat) (cs tl : Nat)
    (hsu : cfg1.skip_unreadable = cfg2.skip_unreadable) :
    ∀ (fs : List (FsPath × String × Bool)) (t : Nat),
      iter_files_go cfg1 enc cs tl fs t = iter_files_go cfg2 enc cs tl fs t := by
  intro fs
  induction fs with
  | nil => intro t; rfl
  | cons hd rest ih =>
      obtain ⟨p, c, r⟩ := hd
      intro t
      cases r with
      | false => simp [iter_files_go, hsu, ih]
      | true => simp [iter_files_go, ih, ite_self]

theorem matching_files_congr (cfg1 cfg2 : ContextProvider)
    (hm : ∀ p, cfg1.file_matches p = cfg2.file_matches p)
    (hr : cfg1.recursive = cfg2.recursive)
    (hh : cfg1.allow_hidden_subdirectories = cfg2.allow_hidden_subdirectories) :
    ∀ (top : FsPath) (es : List Entry),
      cfg1.matching_files top es = cfg2.matching_files top es := by
  intro top es
  induction top, es using ContextProvider.matching_files.induct cfg1 with
  | case1 top => simp [ContextProvider.matching_files]
  | case2 top n c r rest ih => simp [ContextProvider.matching_files, hm, ih]
  | case3 top n ds rest ih1 ih2 => simp [ContextProvider.matching_files, hr, hh, ih1, ih2]

theorem startsWithDot_env : startsWithDot ".env" = true := by decide

theorem if_false_chain (p : Prop) [Decidable p] (b : Bool) :
    (if p then false else b) = (!(decide p) && b) := by
  by_cases h : p <;> simp [h]

/-- C2: `_file_matches` includes a path exactly when each of the ordered
short-circuit rules passes: hidden files allowed or the base name does not
start with a dot, the name whitelist (if set) search-matches the base name,
the name blacklist (if set) does not, the path whitelist (if set)
search-matches the full path string, and the path blacklist (if set) does
not; in particular a file named `.env` is excluded when
`allow_hidden = false` and included when `allow_hidden = true`, all other
options equal and no patterns set. -/
theorem c2_filter_rules :
    (∀ (cfg : ContextProvider) (path : FsPath),
      cfg.file_matches path =
        ((cfg.allow_hidden || !(startsWithDot (pathName path))) &&
         (cfg.regex_whitelist.all fun r => r (pathName path)) &&
         (cfg.regex_blacklist.all fun r => !(r (pathName path))) &&
         (cfg.regex_path_whitelist.all fun r => r (pathStr path)) &&
         (cfg.regex_path_blacklist.all fun r => !(r (pathStr path))))) ∧
    (∀ (d : FsPath) (rc ahs su se : Bool) (pre : FsPath),
      (ContextProvider.mk d none none false rc ahs none none su se).file_matches
          (pre ++ [".env"]) = false ∧
      (ContextProvider.mk d none none true rc ahs none none su se).file_matches
          (pre ++ [".env"]) = true) := by
  constructor
  · intro cfg path
    obtain ⟨d, wl, bl, ah, rc, ahs, pwl, pbl, su, se⟩ := cfg
    simp only [ContextProvider.file_matches, if_false_chain]
    cases wl <;> cases bl <;> cases pwl <;> cases pbl <;>
      simp [Option.all, Bool.not_and, Bool.not_not, Bool.and_assoc]
  · intro d rc ahs su se pre
    constructor
    · simp [ContextProvider.file_matches, pathName_snoc, startsWithDot_env]
    · simp [ContextProvider.file_matches, pathName_snoc, startsWithDot_env]

/-- C3: when a file's content cannot be decoded, `iter_files` logs the
path; with `skip_unreadable = true` the file contributes no record and the
traversal continues with the remaining files unchanged, and with
`skip_unreadable = false` the failure propagates: the generator ends at
once, with no records from this or any later file. -/
theorem c3_decode_failure (cfg : ContextProvider) (enc : String → Nat)
    (chunk_size token_limit : Nat) (p : FsPath) (c : String)
    (rest : List (FsPath × String × Bool)) (t : Nat) :
    iter_files_go cfg enc chunk_size token_limit ((p, c, false) :: rest) t =
      if cfg.skip_unreadable then
        ⟨(iter_files_go cfg enc chunk_size token_limit rest t).records,
         p :: (iter_files_go cfg enc chunk_size token_limit rest t).logs,
         (iter_files_go cfg enc chunk_size token_limit rest t).raised⟩
      else ⟨[], [p], true⟩ := by
  cases h : cfg.skip_unreadable <;> simp [iter_files_go, h]

/-- C8: a file that is fully read without the running total exceeding the
limit is yielded as `(file_token_total, path, accumulated_content)` exactly
when `file_token_total > 0`; a zero-token file is skipped silently, without
an error log and without affecting the rest of the traversal. -/
theorem c8_zero_token_skip (cfg : ContextProvider) (enc : String → Nat)
    (chunk_size token_limit : Nat) (p : FsPath) (c : String)
    (rest : List (FsPath × String × Bool)) (t : Nat)
    (hex : (readChunks enc token_limit (chunks chunk_size c) "" 0 t).exceeded = false) :
    (iter_files_go cfg enc chunk_size token_limit ((p, c, true) :: rest) t).records =
      (if 0 < (readChunks enc token_limit (chunks chunk_size c) "" 0 t).file_tokens then
        [((readChunks enc token_limit (chunks chunk_size c) "" 0 t).file_tokens, p,
          (readChunks enc token_limit (chunks chunk_size c) "" 0 t).file_content)]
      else []) ++
        (iter_files_go cfg enc chunk_size token_limit rest
          (readChunks enc token_limit (chunks chunk_size c) "" 0 t).total_tokens).records ∧
    (iter_files_go cfg enc chunk_size token_limit ((p, c, true) :: rest) t).logs =
      (iter_files_go cfg enc chunk_size token_limit rest
        (readChunks enc token_limit (chunks chunk_size c) "" 0 t).total_tokens).logs ∧
    (iter_files_go cfg enc chunk_size token_limit ((p, c, true) :: rest) t).raised =
      (iter_files_go cfg enc chunk_size token_limit rest
        (readChunks enc token_limit (chunks chunk_size c) "" 0 t).total_tokens).raised := by
  refine ⟨?_, ?_, ?_⟩ <;> simp [iter_files_go, hex, ite_self]

theorem c8_zero_token_skip_witness :
    (readChunks encLen 10000 (chunks 1024 "hi") "" 0 0).exceeded = false ∧
    (iter_files_go cfgDefaults encLen 1024 10000 [(["root", "a.txt"], "hi", true)] 0).records =
      (if 0 < (readChunks encLen 10000 (chunks 1024 "hi") "" 0 0).file_tokens then
        [((readChunks encLen 10000 (chunks 1024 "hi") "" 0 0).file_tokens, ["root", "a.txt"],
          (readChunks encLen 10000 (chunks 1024 "hi") "" 0 0).file_content)]
      else []) ++
        (iter_files_go cfgDefaults encLen 1024 10000 []
          (readChunks encLen 10000 (chunks 1024 "hi") "" 0 0).total_tokens).records :=
  ⟨by decide,
    (c8_zero_token_skip cfgDefaults encLen 1024 10000 ["root", "a.txt"] "hi" [] 0 (by decide)).1⟩

/-- C9: `skip_empty` is observably inert: its only check sits at the end of
the loop body, after the yield, and its `continue` is the fall-through, so
`iter_files` (and with it `calculate_tokens` and `get_context`) behaves the
same for any value of the flag, all other options equal. -/
theorem c9_skip_empty_no_effect (cfg : ContextProvider) (b : Bool) (enc : String → Nat)
    (top : FsPath) (entries : List Entry) (chunk_size token_limit : Nat) :
    ({cfg with skip_empty := b}).iter_files enc top entries chunk_size token_limit =
      ({cfg with skip_empty := false}).iter_files enc top entries chunk_size token_limit ∧
    ({cfg with skip_empty := b}).calculate_tokens enc top entries =
      ({cfg with skip_empty := false}).calculate_tokens enc top entries ∧
    ({cfg with skip_empty := b}).get_context enc entries =
      ({cfg with skip_empty := false}).get_context enc entries := by
  obtain ⟨d, wl, bl, ah, rc, ahs, pwl, pbl, su, se⟩ := cfg
  have hmf := matching_files_congr
    (ContextProvider.mk d wl bl ah rc ahs pwl pbl su b)
    (ContextProvider.mk d wl bl ah rc ahs pwl pbl su false)
    (fun p => rfl) rfl rfl
  have hgo : ∀ cs2 tl2, ∀ (fs : List (FsPath × String × Bool)) (t : Nat),
      iter_files_go (ContextProvider.mk d wl bl ah rc ahs pwl pbl su b) enc cs2 tl2 fs t =
        iter_files_go (ContextProvider.mk d wl bl ah rc ahs pwl pbl su false) enc cs2 tl2 fs t :=
    fun cs2 tl2 => iter_files_go_skip_unreadable_congr _ _ enc cs2 tl2 rfl
  refine ⟨?_, ?_, ?_⟩ <;>
    simp [ContextProvider.iter_files, ContextProvider.calculate_tokens,
      ContextProvider.get_context, hmf, hgo]

theorem iter_files_go_budget (cfg : ContextProvider) (enc : String → Nat)
    (cs tl : Nat) :
    ∀ (fs : List (FsPath × String × Bool)) (t : Nat), t ≤ tl →
      (t + sumTokens (iter_files_go cfg enc cs tl fs t).records ≤ tl) ∨
      ∃ pre last, (iter_files_go cfg enc cs tl fs t).records = pre ++ [last] ∧
        tl < last.1 ∧ t + sumTokens pre ≤ tl := by
  intro fs
  induction fs with
  | nil =>
      intro t ht
      left
      simpa [iter_files_go, sumTokens] using ht
  | cons hd rest ih =>
      obtain ⟨path, content, readable⟩ := hd
      intro t ht
      cases readable with
      | false =>
          cases hsu : cfg.skip_unreadable with
          | false =>
              left
              simpa [iter_files_go, hsu, sumTokens] using ht
          | true =>
              have h := ih t ht
              simpa [iter_files_go, hsu] using h
      | true =>
          obtain ⟨d, hf, htot⟩ :=
            readChunks_delta enc tl (chunks cs content) "" 0 t
          cases hex : (readChunks enc tl (chunks cs content) "" 0 t).exceeded with
          | true =>
              right
              refine ⟨[], ((readChunks enc tl (chunks cs content) "" 0 t).total_tokens,
                path, (readChunks enc tl (chunks cs content) "" 0 t).file_content), ?_, ?_, ?_⟩
              · simp [iter_files_go, hex]
              · exact (readChunks_exceeded_spec enc tl (chunks cs content) "" 0 t).1 hex
              · simpa [sumTokens] using ht
          | false =>
              have htl : (readChunks enc tl (chunks cs content) "" 0 t).total_tokens ≤ tl :=
                (readChunks_exceeded_spec enc tl (chunks cs content) "" 0 t).2 hex ht
              have hopt : sumTokens
                  (if 0 < (readChunks enc tl (chunks cs content) "" 0 t).file_tokens then
                    [((readChunks enc tl (chunks cs content) "" 0 t).file_tokens, path,
                      (readChunks enc tl (chunks cs content) "" 0 t).file_content)]
                  else []) =
                    (readChunks enc tl (chunks cs content) "" 0 t).file_tokens := by
                split
                · simp [sumTokens]
                · simp [sumTokens]
                  omega
              cases ih (readChunks enc tl (chunks cs content) "" 0 t).total_tokens htl with
              | inl h =>
                  left
                  simp only [iter_files_go, hex, Bool.false_eq_true, if_false, if_true, ite_self,
                    sumTokens_append, hopt]
                  omega
              | inr h =>
                  obtain ⟨pre, last, heq, hlt, hle⟩ := h
                  right
                  refine ⟨(if 0 < (readChunks enc tl (chunks cs content) "" 0 t).file_tokens then
                    [((readChunks enc tl (chunks cs content) "" 0 t).file_tokens, path,
                      (readChunks enc tl (chunks cs content) "" 0 t).file_content)]
                  else []) ++ pre, last, ?_, hlt, ?_⟩
                  · simp only [iter_files_go, hex, Bool.false_eq_true, if_false, if_true, ite_self, heq,
                      List.append_assoc]
                  · rw [sumTokens_append, hopt]
                    omega

/-- C1: `iter_files` keeps a running total of tokens across the whole
traversal; either the sequence ends with every yielded record's tokens
summing to at most the limit, or the very last record is the terminating
one, carrying a running total strictly above the limit while all records
before it sum to at most the limit (a hard stop: nothing follows it). -/
theorem c1_budget_invariant (cfg : ContextProvider) (enc : String → Nat)
    (top : FsPath) (entries : List Entry) (chunk_size token_limit : Nat) :
    sumTokens (cfg.iter_files enc top entries chunk_size token_limit).records ≤ token_limit ∨
    ∃ pre last,
      (cfg.iter_files enc top entries chunk_size token_limit).records = pre ++ [last] ∧
      token_limit < last.1 ∧ sumTokens pre ≤ token_limit := by
  have h := iter_files_go_budget cfg enc chunk_size token_limit
    (cfg.matching_files top entries) 0 (Nat.zero_le _)
  simpa [ContextProvider.iter_files] using h

theorem file_matches_no_filters (cfg : ContextProvider)
    (h1 : cfg.regex_whitelist = none) (h2 : cfg.regex_blacklist = none)
    (h3 : cfg.regex_path_whitelist = none) (h4 : cfg.regex_path_blacklist = none)
    (p : FsPath) :
    cfg.file_matches p = (cfg.allow_hidden || !(startsWithDot (pathName p))) := by
  simp only [ContextProvider.file_matches, h1, h2, h3, h4]
  cases hah : cfg.allow_hidden <;> cases hdot : startsWithDot (pathName p) <;> simp

/-- C4: with no regex filters set, `iter_file_paths` yields exactly the
regular files reachable under the root as the spec describes them:
recursing into a subdirectory only when `recursive` is true and, for
hidden subdirectory names, only when `allow_hidden_subdirectories` is
true, and excluding files whose names start with a dot unless
`allow_hidden`; directories themselves are never yielded. -/
theorem c4_no_filters_walk (cfg : ContextProvider)
    (h1 : cfg.regex_whitelist = none) (h2 : cfg.regex_blacklist = none)
    (h3 : cfg.regex_path_whitelist = none) (h4 : cfg.regex_path_blacklist = none)
    (top : FsPath) (entries : List Entry) :
    cfg.iter_file_paths top entries =
      specReachableFiles cfg.allow_hidden cfg.recursive
        cfg.allow_hidden_subdirectories top entries := by
  induction top, entries using ContextProvider.iter_file_paths.induct cfg with
  | case1 top => simp [ContextProvider.iter_file_paths, specReachableFiles]
  | case2 top n c r rest ih =>
      simp [ContextProvider.iter_file_paths, specReachableFiles, ih,
        file_matches_no_filters cfg h1 h2 h3 h4, pathName_snoc]
  | case3 top n ds rest ih1 ih2 =>
      cases hr : cfg.recursive <;>
        simp [ContextProvider.iter_file_paths, specReachableFiles, ih1, ih2, hr]

theorem c4_no_filters_walk_witness :
    cfgDefaults.iter_file_paths ["root"]
        [Entry.dir "sub" [Entry.file "a.txt" "x" true], Entry.file ".env" "y" true] =
      specReachableFiles false true false ["root"]
        [Entry.dir "sub" [Entry.file "a.txt" "x" true], Entry.file ".env" "y" true] :=
  c4_no_filters_walk cfgDefaults rfl rfl rfl rfl ["root"]
    [Entry.dir "sub" [Entry.file "a.txt" "x" true], Entry.file ".env" "y" true]

/-- C5: `calculate_tokens` is the sum of the token counts of the records of
the budget-bounded `iter_files` sequence under its default parameters (so
it is itself budget-limited); for a root with two matching readable files
whose combined chunked token counts stay at or under the default limit, it
equals the sum of the two files' individual token counts as computed by the
tokenizer capability. -/
theorem c5_calculate_tokens_sum (cfg : ContextProvider) (enc : String → Nat)
    (n1 c1 n2 c2 : String)
    (hm1 : cfg.file_matches (cfg.directory ++ [n1]) = true)
    (hm2 : cfg.file_matches (cfg.directory ++ [n2]) = true)
    (hsum : fileTokens enc 1024 c1 + fileTokens enc 1024 c2 ≤ 10000) :
    (∀ (top : FsPath) (entries : List Entry),
      cfg.calculate_tokens enc top entries =
        sumTokens (cfg.iter_files enc top entries 1024 10000).records) ∧
    cfg.calculate_tokens enc cfg.directory
        [Entry.file n1 c1 true, Entry.file n2 c2 true] =
      fileTokens enc 1024 c1 + fileTokens enc 1024 c2 := by
  refine ⟨fun top entries => rfl, ?_⟩
  have t1 : chunkTokens enc (chunks 1024 c1) + chunkTokens enc (chunks 1024 c2) ≤ 10000 := by
    simpa [fileTokens] using hsum
  have e1 := readChunks_complete enc 10000 (chunks 1024 c1) "" 0 0 (by omega)
  have e2 := readChunks_complete enc 10000 (chunks 1024 c2) "" 0
    (chunkTokens enc (chunks 1024 c1)) (by omega)
  have hmf : cfg.matching_files cfg.directory
      [Entry.file n1 c1 true, Entry.file n2 c2 true] =
        [(cfg.directory ++ [n1], c1, true), (cfg.directory ++ [n2], c2, true)] := by
    simp [ContextProvider.matching_files, hm1, hm2]
  simp only [ContextProvider.calculate_tokens, ContextProvider.iter_files, hmf]
  simp [iter_files_go, e1, e2, sumTokens, fileTokens]
  split_ifs <;> simp <;> omega

theorem c5_calculate_tokens_sum_witness :
    cfgDefaults.calculate_tokens encLen cfgDefaults.directory
        [Entry.file "a.txt" "hi" true, Entry.file "b.txt" "there" true] =
      fileTokens encLen 1024 "hi" + fileTokens encLen 1024 "there" :=
  (c5_calculate_tokens_sum cfgDefaults encLen "a.txt" "hi" "b.txt" "there"
    (by decide) (by decide) (by decide)).2

/-- C6: `get_context` concatenates, for each record of `iter_files` under
default parameters, a header line naming the path relative to the scan
root, the accumulated content, and a trailing line break, the records
joined by three consecutive line breaks; for a root holding the single file
`a.txt` containing `hello` the result is precisely the header for the
relative path `a.txt` followed by `hello`. -/
theorem c6_get_context_format (cfg : ContextProvider) (enc : String → Nat)
    (entries : List Entry) :
    (cfg.get_context enc entries = joinSep "\n\n\n"
      ((cfg.iter_files enc cfg.directory entries 1024 10000).records.map
        fun r => "// File \x27" ++ pathStr (relative_to r.2.1 cfg.directory) ++ "\x27\n"
          ++ r.2.2 ++ "\n")) ∧
    cfgDefaults.get_context encLen [Entry.file "a.txt" "hello" true] =
      "// File \x27a.txt\x27\nhello\n" := by
  refine ⟨rfl, ?_⟩
  simp [ContextProvider.get_context, ContextProvider.iter_files,
    ContextProvider.matching_files, ContextProvider.file_matches, cfgDefaults, pathName,
    startsWithDot, iter_files_go, readChunks, chunks, chunksGo, strip, pySpace, encLen,
    joinSep, relative_to, pathStr]

/-- C7 fails as stated: with `token_limit = 0`, a matching readable file
that is non-empty but strips to pure whitespace tokenizes to zero tokens,
so `iter_files` yields no record at all, not exactly one. -/
theorem c7_counterexample :
    cfgDefaults.file_matches ["root", "a.txt"] = true ∧
    (" " : String) ≠ "" ∧
    (cfgDefaults.iter_files encLen ["root"] [Entry.file "a.txt" " " true] 1024 0).records
      = [] := by
  refine ⟨by decide, by decide, ?_⟩
  simp [ContextProvider.iter_files, ContextProvider.matching_files,
    ContextProvider.file_matches, cfgDefaults, pathName, startsWithDot, iter_files_go,
    readChunks, chunks, chunksGo, strip, pySpace, encLen]

/-- C7 (amended): with `token_limit = 0`, if some matching readable file
has a positive token total and no decode failure can abort the traversal
first (`skip_unreadable` set, or every matching file readable), then
`iter_files` yields exactly one record, whose token count exceeds 0, and
terminates: no further file is processed. -/
theorem c7_amended_single_record (cfg : ContextProvider) (enc : String → Nat)
    (chunk_size : Nat) :
    ∀ (fs : List (FsPath × String × Bool)),
      (∃ f ∈ fs, f.2.2 = true ∧ 0 < fileTokens enc chunk_size f.2.1) →
      (cfg.skip_unreadable = true ∨ ∀ f ∈ fs, f.2.2 = true) →
      ∃ r, (iter_files_go cfg enc chunk_size 0 fs 0).records = [r] ∧ 0 < r.1 := by
  intro fs
  induction fs with
  | nil => intro hpos _; simp at hpos
  | cons hd rest ih =>
      obtain ⟨p, c, rd⟩ := hd
      intro hpos hread
      cases rd with
      | false =>
          have hsu : cfg.skip_unreadable = true := by
            cases hread with
            | inl h => exact h
            | inr h => exact absurd (h (p, c, false) (List.mem_cons_self _ _)) (by simp)
          have hpos2 : ∃ f ∈ rest, f.2.2 = true ∧ 0 < fileTokens enc chunk_size f.2.1 := by
            obtain ⟨f, hf, hfr, hft⟩ := hpos
            cases List.mem_cons.mp hf with
            | inl he => subst he; simp at hfr
            | inr hm => exact ⟨f, hm, hfr, hft⟩
          obtain ⟨r, hr1, hr2⟩ := ih hpos2 (Or.inl hsu)
          exact ⟨r, by simp [iter_files_go, hsu, hr1], hr2⟩
      | true =>
          rcases Nat.eq_zero_or_pos (fileTokens enc chunk_size c) with hz | hp
          · have hz2 : chunkTokens enc (chunks chunk_size c) = 0 := by
              simpa [fileTokens] using hz
            have e := readChunks_complete enc 0 (chunks chunk_size c) "" 0 0 (by omega)
            have hpos2 : ∃ f ∈ rest, f.2.2 = true ∧ 0 < fileTokens enc chunk_size f.2.1 := by
              obtain ⟨f, hf, hfr, hft⟩ := hpos
              cases List.mem_cons.mp hf with
              | inl he => subst he; rw [hz] at hft; exact absurd hft (by omega)
              | inr hm => exact ⟨f, hm, hfr, hft⟩
            have hread2 : cfg.skip_unreadable = true ∨ ∀ f ∈ rest, f.2.2 = true := by
              cases hread with
              | inl h => exact Or.inl h
              | inr h => exact Or.inr fun f hf => h f (List.mem_cons_of_mem _ hf)
            obtain ⟨r, hr1, hr2⟩ := ih hpos2 hread2
            refine ⟨r, ?_, hr2⟩
            simp [iter_files_go, e, hz2, hr1]
          · have hp2 : 0 < chunkTokens enc (chunks chunk_size c) := by
              simpa [fileTokens] using hp
            have hex := readChunks_zero_limit enc (chunks chunk_size c) "" 0 hp2
            have hgt := (readChunks_exceeded_spec enc 0 (chunks chunk_size c) "" 0 0).1 hex
            refine ⟨((readChunks enc 0 (chunks chunk_size c) "" 0 0).total_tokens, p,
              (readChunks enc 0 (chunks chunk_size c) "" 0 0).file_content), ?_, hgt⟩
            simp [iter_files_go, hex]

theorem c7_amended_witness :
    ∃ r, (iter_files_go cfgDefaults encLen 1024 0 [(["root", "b.txt"], "hi", true)] 0).records
        = [r] ∧ 0 < r.1 :=
  c7_amended_single_record cfgDefaults encLen 1024 [(["root", "b.txt"], "hi", true)]
    (by decide) (Or.inl rfl)

/-- C10: the content `iter_files` accumulates for a file is the
concatenation of its fixed-size chunks each stripped of leading and
trailing whitespace; hence for content with whitespace falling at a chunk
boundary the yielded content differs from the file's actual text, and two
calls differing only in `chunk_size` can yield different content and
different token counts for the same file. -/
theorem c10_content_stripping :
    (∀ (enc : String → Nat) (token_limit : Nat) (cs : List String)
        (cont : String) (f t : Nat),
      (readChunks enc token_limit cs cont f t).exceeded = false →
      (readChunks enc token_limit cs cont f t).file_content = cont ++ joinStripped cs) ∧
    (cfgDefaults.iter_files encLen ["root"] [Entry.file "a.txt" "a b" true] 2 100).records =
      [(2, ["root", "a.txt"], "ab")] ∧
    (cfgDefaults.iter_files encLen ["root"] [Entry.file "a.txt" "a b" true] 3 100).records =
      [(3, ["root", "a.txt"], "a b")] ∧
    ("ab" : String) ≠ "a b" := by
  refine ⟨fun enc tl cs cont f t hex => readChunks_content enc tl cs cont f t hex,
    ?_, ?_, by decide⟩
  · simp [ContextProvider.iter_files, ContextProvider.matching_files,
      ContextProvider.file_matches, cfgDefaults, pathName, startsWithDot, iter_files_go,
      readChunks, chunks, chunksGo, strip, pySpace, encLen]
  · simp [ContextProvider.iter_files, ContextProvider.matching_files,
      ContextProvider.file_matches, cfgDefaults, pathName, startsWithDot, iter_files_go,
      readChunks, chunks, chunksGo, strip, pySpace, encLen]

theorem c10_content_stripping_witness :
    (readChunks encLen 100 ["a ", "b"] "" 0 0).exceeded = false ∧
    (readChunks encLen 100 ["a ", "b"] "" 0 0).file_content = "" ++ joinStripped ["a ", "b"] :=
  ⟨by decide, c10_content_stripping.1 encLen 100 ["a ", "b"] "" 0 0 (by decide)⟩

end OpenaiHelper
